import Mathlib

/-!
Verification of the multi-environment transactional state engine and the
OpenStack firewaller of this repository.

The state-engine implementations (namespace resolver, transaction runner,
sequence generator, watcher coalescing, status history, password-hash
capability) are exercised by `state/export_test.go` but their bodies are not
among the provided sources, so those components are modelled from the spec
(each such definition carries a doc comment starting `Modelled from the
spec:`).  The OpenStack firewaller (`provider/openstack/firewaller.go`) is
present in full and is embedded directly.

Go strings that are inspected character by character (environment UUIDs and
document ids) are modelled as `List Char`; other strings stay `String`.
-/

namespace JujuState

/-- The error taxonomy of the state engine, from the spec (§7). -/
inductive StateError
  | notFound
  | alreadyExists
  | invalidIdentifier
  | excessiveContention
  | aborted
  | watcherTerminated
deriving DecidableEq, Repr

/-! ## Namespace Resolver -/

/-- The separator between the environment UUID and the local id inside a
namespaced document id.  The spec treats the exact separator as an internal
convention; callers treat ids as opaque. -/
def envSep : Char := ':'

/-- Modelled from the spec: `toGlobalId(env, localId)` (the `docID` method of
`State`, exported as `DocID` in `state/export_test.go`; its body is not among
the sources).  A pure, deterministic concatenation of the environment UUID,
the separator, and the local id. -/
def docID (envUUID localId : List Char) : List Char :=
  envUUID ++ envSep :: localId

/-- Modelled from the spec: `toLocalId(env, globalId)` (the `localID` method of
`State`, exported as `LocalID` in `state/export_test.go`; its body is not among
the sources).  Its exported signature is total (it returns a plain string), so
an id that does not carry the expected environment prefix is returned
unchanged; an id carrying the prefix is de-namespaced. -/
def localID (envUUID id : List Char) : List Char :=
  if (envUUID ++ [envSep]).isPrefixOf id then id.drop (envUUID.length + 1) else id

/-- Modelled from the spec: the strict variant of de-namespacing (the
`strictLocalID` method of `State`, exported as `StrictLocalID` in
`state/export_test.go`; its body is not among the sources).  It fails with an
invalid-identifier condition whenever the id does not carry the caller's
environment prefix, even if the id is otherwise well formed. -/
def strictLocalID (envUUID id : List Char) : Except StateError (List Char) :=
  if (envUUID ++ [envSep]).isPrefixOf id then .ok (id.drop (envUUID.length + 1))
  else .error .invalidIdentifier

/-! ## Sequence Generator -/

/-- Modelled from the spec: the per-name counter documents backing the
sequence generator.  An unseen name holds no counter document. -/
def SeqStore : Type := String → Option Nat

/-- Modelled from the spec: `next(name)` (the `sequence` method of `State`,
exported as `Sequence` in `state/export_test.go`; its body is not among the
sources).  A single atomic increment-and-return against the per-name counter
document: a previously unseen name is initialized to zero before the
increment, the pre-increment value is returned, and the stored value grows by
exactly one. -/
def sequence (store : SeqStore) (name : String) : Nat × SeqStore :=
  let cur := (store name).getD 0
  (cur, fun n => if n = name then some (cur + 1) else store n)

/-- The values returned by `k` successive calls of `sequence` on one name. -/
def seqCalls (store : SeqStore) (name : String) : Nat → List Nat
  | 0 => []
  | k + 1 =>
    let r := sequence store name
    r.1 :: seqCalls r.2 name k

/-! ## Transaction Runner -/

/-- A document of the clustered store: a monotonically increasing revision
counter (the optimistic-concurrency fencing token) plus its payload. -/
structure Doc where
  revno : Nat
  payload : String
deriving DecidableEq, Repr

/-- The shared dataset: for each (collection, document id) pair, the document
currently stored there, if any. -/
def Store : Type := String × String → Option Doc

/-- The per-operation assertion carried by a transaction operation. -/
inductive TxnAssert
  | docExists
  | docMissing
  | revnoIs (revno : Nat)
  | noAssert
deriving DecidableEq, Repr

/-- The action of a transaction operation: one of insert/update/remove. -/
inductive TxnAction
  | insert (payload : String)
  | update (payload : String)
  | remove
deriving DecidableEq, Repr

/-- A transaction operation: one target document in one collection, an
existence/field assertion, and one action. -/
structure TxnOp where
  coll : String
  docId : String
  assert : TxnAssert
  action : TxnAction
deriving DecidableEq, Repr

/-- Whether an assertion holds for the current contents of the target slot. -/
def checkAssert (cur : Option Doc) : TxnAssert → Bool
  | .docExists => cur.isSome
  | .docMissing => cur.isNone
  | .revnoIs r => match cur with
    | some d => d.revno = r
    | none => false
  | .noAssert => true

/-- Replace the contents of one (collection, id) slot of the store. -/
def setDoc (st : Store) (key : String × String) (v : Option Doc) : Store :=
  fun k => if k = key then v else st k

/-- Modelled from the spec: one operation applied by the store's commit
primitive.  The assertion is checked against the working state; an insert of
an existing document, or an update/remove of a missing one, fails with its
typed error; a failed assertion aborts the attempt (`aborted`). -/
def applyOp (st : Store) (op : TxnOp) : Except StateError Store :=
  let cur := st (op.coll, op.docId)
  if checkAssert cur op.assert then
    match op.action, cur with
    | .insert p, none => .ok (setDoc st (op.coll, op.docId) (some ⟨1, p⟩))
    | .insert _, some _ => .error .alreadyExists
    | .update p, some d => .ok (setDoc st (op.coll, op.docId) (some ⟨d.revno + 1, p⟩))
    | .update _, none => .error .notFound
    | .remove, some _ => .ok (setDoc st (op.coll, op.docId) none)
    | .remove, none => .error .notFound
  else .error .aborted

/-- Sequential application of a batch of operations on a working copy of the
store; the first failing operation abandons the working copy. -/
def applyOps (st : Store) : List TxnOp → Except StateError Store
  | [] => .ok st
  | op :: ops =>
    match applyOp st op with
    | .ok st2 => applyOps st2 ops
    | .error e => .error e

/-- The unconditional effect of one operation, ignoring its assertion: the
pure "all N operations applied in order" function against which atomicity is
stated. -/
def applyAction (st : Store) (op : TxnOp) : Store :=
  match op.action, st (op.coll, op.docId) with
  | .insert p, _ => setDoc st (op.coll, op.docId) (some ⟨1, p⟩)
  | .update p, some d => setDoc st (op.coll, op.docId) (some ⟨d.revno + 1, p⟩)
  | .update _, none => st
  | .remove, _ => setDoc st (op.coll, op.docId) none

/-- Modelled from the spec: `run(ops)` of the Transaction Runner (the
`runTransaction` method of `State`, exported as `RunTransaction` in
`state/export_test.go`; its body is not among the sources), delegating to the
store's atomic multi-document commit primitive.  The caller observes the
resulting dataset and at most one typed error: on success the working copy
with every operation applied, on failure the untouched original dataset. -/
def runTransaction (st : Store) (ops : List TxnOp) : Store × Option StateError :=
  match applyOps st ops with
  | .ok st2 => (st2, none)
  | .error e => (st, some e)

/-- The outcome of a single commit attempt, as seen by the retry loop of the
Transaction Runner. -/
inductive AttemptOutcome
  | success
  | assertFailed
  | fatal (e : StateError)
deriving DecidableEq, Repr

/-- Modelled from the spec: the bounded retry loop of the Transaction Runner
(the `multiEnvRunner` delegates to the underlying transaction runner, exported
as `NewMultiEnvRunnerForTesting` in `state/export_test.go`; the loop body is
not among the sources).  `attempt i` is the outcome of the i-th commit
attempt; `fuel` is how many attempts remain.  An assertion-conflict failure is
retried; any other error is returned at once; an exhausted attempt budget
surfaces `excessiveContention`. -/
def retryLoop (attempt : Nat → AttemptOutcome) : Nat → Nat → Option StateError
  | 0, _ => some .excessiveContention
  | fuel + 1, i =>
    match attempt i with
    | .success => none
    | .assertFailed => retryLoop attempt fuel (i + 1)
    | .fatal e => some e

/-- Modelled from the spec: running a transaction under the configured attempt
limit, starting from the first attempt. -/
def runWithRetries (limit : Nat) (attempt : Nat → AttemptOutcome) : Option StateError :=
  retryLoop attempt limit 0

/-! ## Transaction Log Watcher -/

/-- Modelled from the spec: one transaction-log entry as consumed by a
watcher: the touched document id and whether the document still exists after
the change (the sign of the resulting revision in the log). -/
def LogEntry : Type := String × Bool

/-- Modelled from the spec: last-write-wins coalescing of one raw log batch:
of all entries touching the same document id only the latest is kept, so the
coalesced batch holds at most one entry per id. -/
def collapseBatch : List LogEntry → List LogEntry
  | [] => []
  | e :: rest =>
    if rest.any (fun x => x.1 == e.1) then collapseBatch rest
    else e :: collapseBatch rest

/-- The latest existence flag recorded for `id` in a batch, if the batch
touches `id` at all. -/
def lastAlive : List LogEntry → String → Option Bool
  | [], _ => none
  | e :: rest, id =>
    match lastAlive rest id with
    | some b => some b
    | none => if e.1 = id then some e.2 else none

/-- Modelled from the spec: `mergeIds` (exported as `WatcherMergeIds` in
`state/export_test.go`; its body is not among the sources).  It merges one
coalesced update set into the pending changeset: an id whose document exists
is appended unless already pending, an id whose document is gone is dropped
from the changeset. -/
def mergeIds (changeset : List String) : List LogEntry → List String
  | [] => changeset
  | u :: us =>
    mergeIds
      (if u.2 then (if u.1 ∈ changeset then changeset else changeset ++ [u.1])
       else changeset.erase u.1)
      us

/-- Modelled from the spec: `ensureSuffixFn` (exported as
`WatcherEnsureSuffixFn`; its body is not among the sources): append the marker
to a name unless it already ends with it. -/
def ensureSuffixFn (marker s : String) : String :=
  if s.endsWith marker then s else s ++ marker

/-- Modelled from the spec: `makeIdFilter` (exported as `WatcherMakeIdFilter`
in `state/export_test.go`; its body is not among the sources): a key matches
when it starts with some receiver's name extended by the marker. -/
def makeIdFilter (marker : String) (receivers : List String) (key : String) : Bool :=
  receivers.any (fun r => (ensureSuffixFn marker r).isPrefixOf key)

/-- Modelled from the spec: one watcher poll iteration over one raw log batch:
keep the entries matching the watcher's id filter, coalesce them per document
id (last write wins), and merge them into an empty changeset.  The result is
the list of ids notified for this iteration. -/
def pollChanges (filter : String → Bool) (batch : List LogEntry) : List String :=
  mergeIds [] (collapseBatch (batch.filter (fun e => filter e.1)))

/-! ## Status History Engine -/

/-- A status record, from the spec: entity key, status code, free-form info,
structured data, timestamp, and the sequence number allocated from the
Sequence Generator.  Records are append-only. -/
structure StatusRecord where
  entityKey : String
  status : String
  info : String
  statusData : List (String × String)
  timestamp : Nat
  seq : Nat
deriving DecidableEq, Repr

/-- Newest-first ordering of status records: a record with the larger
sequence number comes first. -/
def seqGE (a b : StatusRecord) : Prop := b.seq ≤ a.seq

instance : DecidableRel seqGE := fun a b => Nat.decLe b.seq a.seq

instance : IsTotal StatusRecord seqGE := ⟨fun a b => le_total b.seq a.seq⟩

instance : IsTrans StatusRecord seqGE := ⟨fun _ _ _ h1 h2 => le_trans h2 h1⟩

/-- Modelled from the spec: `history(entityKey, limit)` (`statusHistory`,
exported as `StatusHistory` in `state/export_test.go`; its body is not among
the sources): the records of that key, ordered newest first by sequence
number, truncated to the limit. -/
def statusHistory (db : List StatusRecord) (key : String) (limit : Nat) : List StatusRecord :=
  (List.insertionSort seqGE (db.filter (fun r => r.entityKey == key))).take limit

/-- Modelled from the spec: pruning the status history of one key to a
maximum record count (the retention path behind `UpdateStatusHistory` /
`EraseUnitHistory` in `state/export_test.go`; the bodies are not among the
sources).  The `maxCount` newest records of the key are kept; every older
record of that key is removed; other keys are untouched. -/
def pruneStatusHistory (db : List StatusRecord) (key : String) (maxCount : Nat) :
    List StatusRecord :=
  db.filter (fun r => r.entityKey != key ||
    ((statusHistory db key maxCount).map StatusRecord.seq).contains r.seq)

/-! ## Password-hash capability -/

/-- Modelled from the spec: a credential-bearing entity implementing the
authentication contract; only some implementations support password-hash
compatibility writes. -/
inductive Authenticator
  | hashSettableEntity (passwordHash : String)
  | fixedHashEntity (passwordHash : String)
deriving DecidableEq, Repr

/-- A runtime failure of the Go program, as opposed to a returned error. -/
inductive GoRuntimeError
  | typeAssertionFailed
deriving DecidableEq, Repr

/-- Modelled from the spec: the explicit optional-capability query
`asPasswordHashSettable(entity)`: the password-hash-setting capability when
the entity's implementation supports it, or an absence value. -/
def asPasswordHashSettable : Authenticator → Option (String → Authenticator)
  | .hashSettableEntity _ => some (fun h => .hashSettableEntity h)
  | .fixedHashEntity _ => none

/-- `SetPasswordHash` from `state/export_test.go`: it performs the unchecked
Go type assertion `e.(hasSetPasswordHash)` and then calls `setPasswordHash`.
An entity whose implementation does not provide the interface makes the
assertion fail at runtime (a panic), modelled as `.error`; the successful
branch returns the entity with the new hash written. -/
def SetPasswordHash (e : Authenticator) (passwordHash : String) :
    Except GoRuntimeError Authenticator :=
  match e with
  | .hashSettableEntity _ => .ok (.hashSettableEntity passwordHash)
  | .fixedHashEntity _ => .error .typeAssertionFailed

end JujuState

namespace OpenstackFw

/-! ## OpenStack firewaller (`provider/openstack/firewaller.go`) -/

/-- A Neutron security-group rule (`neutron.SecurityGroupRuleV2`), with the
fields read by the firewaller.  Pointer-typed fields are options. -/
structure SecGroupRule where
  ruleId : String
  direction : String
  ipProtocol : Option String
  portRangeMin : Option Int
  portRangeMax : Option Int
deriving DecidableEq, Repr

/-- A Neutron security group (`neutron.SecurityGroupV2`). -/
structure SecGroup where
  groupId : String
  name : String
  rules : List SecGroupRule
deriving DecidableEq, Repr

/-- `network.PortRange` of the repository's network package. -/
structure PortRange where
  protocol : String
  fromPort : Int
  toPort : Int
deriving DecidableEq, Repr

/-- Errors returned by the firewaller operations; `nilPointerDeref` stands
for a Go runtime panic on an unguarded pointer dereference, `deleteFailed`
for an error returned by the Neutron client when deleting a rule. -/
inductive FwError
  | invalidFirewallMode (mode : String) (action : String)
  | groupsNotFound (nameRegExp : String)
  | nilPointerDeref
  | deleteFailed (ruleId : String)
deriving DecidableEq, Repr

/-- The firewall-mode constants of `environs/config` used by the firewaller
(`config.FwInstance`, `config.FwGlobal`). -/
def FwInstance : String := "instance"

/-- See `FwInstance`. -/
def FwGlobal : String := "global"

/-- The configuration the firewaller reads from its environ: the firewall
mode and the model UUID used in group names. -/
structure EnvConfig where
  firewallMode : String
  uuid : String
deriving DecidableEq, Repr

/-- `jujuGroupRegexp`: the regexp source matching this model's group names. -/
def jujuGroupRegexp (cfg : EnvConfig) : String :=
  "juju-.*-" ++ cfg.uuid

/-- `globalGroupRegexp`: the regexp source for the model-wide global group. -/
def globalGroupRegexp (cfg : EnvConfig) : String :=
  jujuGroupRegexp cfg ++ "-global"

/-- `machineGroupRegexp`: the regexp source for one machine's group. -/
def machineGroupRegexp (cfg : EnvConfig) (machineId : String) : String :=
  jujuGroupRegexp cfg ++ "-" ++ machineId

/-- `matchingGroup`: of all existing security groups, exactly one must have a
name matching the regexp; zero and multiple matches both fail with a
not-found error.  The regexp engine is abstracted as the `rxMatch` predicate
(regexp source, group name); the firewaller's internally built regexps always
compile. -/
def matchingGroup (rxMatch : String → String → Bool) (nameRegExp : String)
    (groups : List SecGroup) : Except FwError SecGroup :=
  match groups.filter (fun g => rxMatch nameRegExp g.name) with
  | [g] => .ok g
  | _ => .error (.groupsNotFound nameRegExp)

/-- The port range read out of one rule in `portsInGroup`: the protocol is an
unchecked pointer dereference (`*p.IPProtocol`, a runtime panic on nil,
modelled as `.error`); a nil min or max port leaves the Go zero value 0. -/
def rangeOfRule (r : SecGroupRule) : Except FwError PortRange :=
  match r.ipProtocol with
  | none => .error .nilPointerDeref
  | some proto => .ok ⟨proto, r.portRangeMin.getD 0, r.portRangeMax.getD 0⟩

/-- The rule loop of `portsInGroup`: the default egress rules created by
Neutron are skipped, every other rule contributes its port range. -/
def collectGroupRanges : List SecGroupRule → Except FwError (List PortRange)
  | [] => .ok []
  | r :: rest =>
    if r.direction == "egress" then collectGroupRanges rest
    else
      match rangeOfRule r, collectGroupRanges rest with
      | .ok pr, .ok prs => .ok (pr :: prs)
      | .error e, _ => .error e
      | _, .error e => .error e

/-- Lexicographic comparison on (protocol, fromPort, toPort), the order of
the repository's `network.SortPortRanges` (the network package is not among
the sources; modelled from its use). -/
def portRangeLE (a b : PortRange) : Prop :=
  a.protocol < b.protocol ∨
    (a.protocol = b.protocol ∧
      (a.fromPort < b.fromPort ∨ (a.fromPort = b.fromPort ∧ a.toPort ≤ b.toPort)))

instance : DecidableRel portRangeLE := fun a b => by
  unfold portRangeLE
  infer_instance

instance : IsTotal PortRange portRangeLE := by
  constructor
  intro a b
  rcases lt_trichotomy a.protocol b.protocol with h | h | h
  · exact Or.inl (Or.inl h)
  · rcases lt_trichotomy a.fromPort b.fromPort with h2 | h2 | h2
    · exact Or.inl (Or.inr ⟨h, Or.inl h2⟩)
    · rcases le_total a.toPort b.toPort with h3 | h3
      · exact Or.inl (Or.inr ⟨h, Or.inr ⟨h2, h3⟩⟩)
      · exact Or.inr (Or.inr ⟨h.symm, Or.inr ⟨h2.symm, h3⟩⟩)
    · exact Or.inr (Or.inr ⟨h.symm, Or.inl h2⟩)
  · exact Or.inr (Or.inl h)

instance : IsTrans PortRange portRangeLE := by
  constructor
  intro a b c hab hbc
  rcases hab with h1 | ⟨e1, h1⟩
  · rcases hbc with h2 | ⟨e2, _⟩
    · exact Or.inl (lt_trans h1 h2)
    · exact Or.inl (e2 ▸ h1)
  · rcases hbc with h2 | ⟨e2, h2⟩
    · exact Or.inl (e1 ▸ h2)
    · refine Or.inr ⟨e1.trans e2, ?_⟩
      rcases h1 with h1 | ⟨f1, h1⟩
      · rcases h2 with h2 | ⟨f2, _⟩
        · exact Or.inl (lt_trans h1 h2)
        · exact Or.inl (f2 ▸ h1)
      · rcases h2 with h2 | ⟨f2, h2⟩
        · exact Or.inl (f1 ▸ h2)
        · exact Or.inr ⟨f1.trans f2, le_trans h1 h2⟩

/-- `network.SortPortRanges`: sort port ranges lexicographically (modelled
from the spec; the network package is not among the sources). -/
def SortPortRanges (prs : List PortRange) : List PortRange :=
  List.insertionSort portRangeLE prs

/-- `portsInGroup`: the port ranges of the non-egress rules of the uniquely
matching group, sorted. -/
def portsInGroup (rxMatch : String → String → Bool) (nameRegexp : String)
    (groups : List SecGroup) : Except FwError (List PortRange) :=
  match matchingGroup rxMatch nameRegexp groups with
  | .error e => .error e
  | .ok group =>
    match collectGroupRanges group.rules with
    | .error e => .error e
    | .ok prs => .ok (SortPortRanges prs)

/-- `portsToRuleInfo` of the openstack provider (its file is not among the
sources; modelled from its use in `openPortsInGroup`): each port range becomes
an ingress rule of the parent group.  The rule id is assigned by Neutron on
creation; the embedding leaves it empty. -/
def ruleOfPortRange (pr : PortRange) : SecGroupRule :=
  ⟨"", "ingress", some pr.protocol, some pr.fromPort, some pr.toPort⟩

/-- Replace the rule list of the group with the given id. -/
def setGroupRules (groups : List SecGroup) (gid : String) (rules : List SecGroupRule) :
    List SecGroup :=
  groups.map (fun g => if g.groupId = gid then { g with rules := rules } else g)

/-- `openPortsInGroup`: find the uniquely matching group and create one
ingress rule per port range.  Rule-creation errors are only logged by the
source, so creation is modelled as always succeeding. -/
def openPortsInGroup (rxMatch : String → String → Bool) (nameRegExp : String)
    (groups : List SecGroup) (portRanges : List PortRange) :
    Option FwError × List SecGroup :=
  match matchingGroup rxMatch nameRegExp groups with
  | .error e => (some e, groups)
  | .ok g =>
    (none, setGroupRules groups g.groupId (g.rules ++ portRanges.map ruleOfPortRange))

/-- `ruleMatchesPortRange`: whether a security-group rule corresponds to the
port range.  The source's guard `rule.IPProtocol == nil ||
*rule.PortRangeMax == 0 || *rule.PortRangeMin == 0` short-circuits left to
right: a nil protocol is no match, but it dereferences `*rule.PortRangeMax`
(and then `*rule.PortRangeMin`) with no nil guard, so a rule with a protocol
and a nil port bound makes the program panic at runtime, modelled as
`.error .nilPointerDeref`; a zero bound is no match; otherwise the protocol
and both bounds are compared. -/
def ruleMatchesPortRange (r : SecGroupRule) (pr : PortRange) :
    Except FwError Bool :=
  match r.ipProtocol with
  | none => .ok false
  | some proto =>
    match r.portRangeMax with
    | none => .error .nilPointerDeref
    | some maxPort =>
      if maxPort == 0 then .ok false
      else
        match r.portRangeMin with
        | none => .error .nilPointerDeref
        | some minPort =>
          if minPort == 0 then .ok false
          else .ok (proto == pr.protocol && minPort == pr.fromPort &&
            maxPort == pr.toPort)

/-- The inner loop of `closePortsInGroup` over the matched group's rule
snapshot: the first rule whose `ruleMatchesPortRange` holds, a runtime panic
inside that check propagating as its error. -/
def findMatchingRule (pr : PortRange) :
    List SecGroupRule → Except FwError (Option SecGroupRule)
  | [] => .ok none
  | r :: rest =>
    match ruleMatchesPortRange r pr with
    | .error e => .error e
    | .ok true => .ok (some r)
    | .ok false => findMatchingRule pr rest

/-- `DeleteSecurityGroupRuleV2` of the Neutron client: deleting a rule id
that still exists removes it; deleting an id no longer present (e.g. the
same rule a second time) fails with the client's error. -/
def deleteRuleById (groups : List SecGroup) (rid : String) :
    Except FwError (List SecGroup) :=
  if groups.any (fun g => g.rules.any (fun r => r.ruleId == rid)) then
    .ok (groups.map (fun g =>
      { g with rules := g.rules.filter (fun r => !(r.ruleId == rid)) }))
  else .error (.deleteFailed rid)

/-- The outer loop of `closePortsInGroup`: for each requested port range, the
first matching rule of the snapshot is deleted through the client; a failed
deletion returns its error at once (`return err` in the source), leaving the
deletions already performed in place, and a port range with no matching rule
is skipped. -/
def closeLoop (snapshot : List SecGroupRule) :
    List SecGroup → List PortRange → Option FwError × List SecGroup
  | st, [] => (none, st)
  | st, pr :: prs =>
    match findMatchingRule pr snapshot with
    | .error e => (some e, st)
    | .ok none => closeLoop snapshot st prs
    | .ok (some r) =>
      match deleteRuleById st r.ruleId with
      | .error e => (some e, st)
      | .ok st2 => closeLoop snapshot st2 prs

/-- `closePortsInGroup`: an empty request is a no-op; otherwise, for each
port range, the first rule of the matching group's rule snapshot that
corresponds to it is deleted through the client, stopping with an error if a
deletion fails or the match check panics. -/
def closePortsInGroup (rxMatch : String → String → Bool) (nameRegExp : String)
    (groups : List SecGroup) (portRanges : List PortRange) :
    Option FwError × List SecGroup :=
  if portRanges.isEmpty then (none, groups)
  else
    match matchingGroup rxMatch nameRegExp groups with
    | .error e => (some e, groups)
    | .ok g => closeLoop g.rules groups portRanges

/-- `OpenPorts`: opens port ranges for the whole model; only legal in the
global firewall mode, otherwise an invalid-firewall-mode error is returned
before any security-group interaction. -/
def OpenPorts (rxMatch : String → String → Bool) (cfg : EnvConfig)
    (groups : List SecGroup) (ports : List PortRange) :
    Option FwError × List SecGroup :=
  if cfg.firewallMode ≠ FwGlobal then
    (some (.invalidFirewallMode cfg.firewallMode "opening ports on model"), groups)
  else openPortsInGroup rxMatch (globalGroupRegexp cfg) groups ports

/-- `ClosePorts`: closes port ranges for the whole model; global mode only. -/
def ClosePorts (rxMatch : String → String → Bool) (cfg : EnvConfig)
    (groups : List SecGroup) (ports : List PortRange) :
    Option FwError × List SecGroup :=
  if cfg.firewallMode ≠ FwGlobal then
    (some (.invalidFirewallMode cfg.firewallMode "closing ports on model"), groups)
  else closePortsInGroup rxMatch (globalGroupRegexp cfg) groups ports

/-- `Ports`: the port ranges opened for the whole model; global mode only. -/
def Ports (rxMatch : String → String → Bool) (cfg : EnvConfig)
    (groups : List SecGroup) : Except FwError (List PortRange) :=
  if cfg.firewallMode ≠ FwGlobal then
    .error (.invalidFirewallMode cfg.firewallMode "retrieving ports from model")
  else portsInGroup rxMatch (globalGroupRegexp cfg) groups

/-- `OpenInstancePorts`: opens port ranges for one instance; instance mode
only. -/
def OpenInstancePorts (rxMatch : String → String → Bool) (cfg : EnvConfig)
    (groups : List SecGroup) (machineId : String) (ports : List PortRange) :
    Option FwError × List SecGroup :=
  if cfg.firewallMode ≠ FwInstance then
    (some (.invalidFirewallMode cfg.firewallMode "opening ports on instance"), groups)
  else openPortsInGroup rxMatch (machineGroupRegexp cfg machineId) groups ports

/-- `CloseInstancePorts`: closes port ranges for one instance; instance mode
only. -/
def CloseInstancePorts (rxMatch : String → String → Bool) (cfg : EnvConfig)
    (groups : List SecGroup) (machineId : String) (ports : List PortRange) :
    Option FwError × List SecGroup :=
  if cfg.firewallMode ≠ FwInstance then
    (some (.invalidFirewallMode cfg.firewallMode "closing ports on instance"), groups)
  else closePortsInGroup rxMatch (machineGroupRegexp cfg machineId) groups ports

/-- `InstancePorts`: the port ranges opened for one instance; instance mode
only. -/
def InstancePorts (rxMatch : String → String → Bool) (cfg : EnvConfig)
    (groups : List SecGroup) (machineId : String) : Except FwError (List PortRange) :=
  if cfg.firewallMode ≠ FwInstance then
    .error (.invalidFirewallMode cfg.firewallMode "retrieving ports from instance")
  else portsInGroup rxMatch (machineGroupRegexp cfg machineId) groups

end OpenstackFw

namespace JujuState

/-! ## Namespace-resolver theorems (C2, C3) -/

theorem takeWhile_append_sep (p t : List Char) (hp : envSep ∉ p) :
    (p ++ envSep :: t).takeWhile (fun c => c != envSep) = p := by
  induction p with
  | nil => simp
  | cons a p ih =>
    have ha : a ≠ envSep := fun h => hp (h ▸ List.mem_cons_self a p)
    have hp2 : envSep ∉ p := fun h => hp (List.mem_cons_of_mem a h)
    simp [List.takeWhile_cons, ha, ih hp2]

/-- C2: de-namespacing inverts namespacing: for every environment UUID `e`
and local id `i`, both the total and the strict de-namespacing of
`docID e i` in `e`'s own context return `i`. -/
theorem claim_C2_namespace_round_trip (e i : List Char) :
    localID e (docID e i) = i ∧ strictLocalID e (docID e i) = .ok i := by
  have hd : docID e i = (e ++ [envSep]) ++ i := by
    simp [docID]
  have hpre : (e ++ [envSep]).isPrefixOf (docID e i) = true := by
    rw [ List.isPrefixOf_iff_prefix, hd]
    exact List.prefix_append _ _
  have hlen : e.length + 1 = (e ++ [envSep]).length := by simp
  have hdrop : (docID e i).drop (e.length + 1) = i := by
    rw [hd, hlen, List.drop_left]
  constructor
  · rw [localID, if_pos hpre, hdrop]
  · rw [strictLocalID, if_pos hpre, hdrop]

/-- C3: strict de-namespacing rejects cross-environment access: for distinct
environment UUIDs `e ≠ e2` (neither containing the separator), de-namespacing
`docID e i` in `e2`'s context fails with the invalid-identifier error. -/
theorem claim_C3_strict_cross_env_rejected (e e2 i : List Char)
    (hne : e2 ≠ e) (he : envSep ∉ e) (he2 : envSep ∉ e2) :
    strictLocalID e2 (docID e i) = .error .invalidIdentifier := by
  have hpre : (e2 ++ [envSep]).isPrefixOf (docID e i) = false := by
    rw [Bool.eq_false_iff]
    intro hb
    rw [ List.isPrefixOf_iff_prefix] at hb
    obtain ⟨t, ht⟩ := hb
    have ht2 : e2 ++ envSep :: t = e ++ envSep :: i := by
      simpa [docID] using ht
    have := congrArg (List.takeWhile (fun c => c != envSep)) ht2
    rw [takeWhile_append_sep e2 t he2, takeWhile_append_sep e i he] at this
    exact hne this
  rw [strictLocalID, if_neg]
  simp [hpre]

theorem claim_C3_witness :
    ((['b'] : List Char) ≠ ['a'] ∧ envSep ∉ (['a'] : List Char) ∧
      envSep ∉ (['b'] : List Char)) ∧
    strictLocalID ['b'] (docID ['a'] ['x']) = .error .invalidIdentifier :=
  ⟨by decide,
    claim_C3_strict_cross_env_rejected ['a'] ['b'] ['x'] (by decide) (by decide) (by decide)⟩

/-! ## Sequence-generator theorems (C4) -/

theorem seqCalls_closed_form (k : Nat) :
    ∀ (s : SeqStore) (name : String),
      seqCalls s name k = (List.range k).map (fun j => (s name).getD 0 + j) := by
  induction k with
  | zero => intro s name; rfl
  | succ k ih =>
    intro s name
    have hstep : ((sequence s name).2) name = some ((s name).getD 0 + 1) := by
      simp [sequence]
    calc seqCalls s name (k + 1)
        = (s name).getD 0 :: seqCalls (sequence s name).2 name k := rfl
      _ = (s name).getD 0 ::
            (List.range k).map (fun j => (((sequence s name).2) name).getD 0 + j) :=
          by rw [ih]
      _ = (s name).getD 0 :: (List.range k).map (fun j => (s name).getD 0 + 1 + j) :=
          by rw [hstep]; rfl
      _ = (List.range (k + 1)).map (fun j => (s name).getD 0 + j) := by
          rw [List.range_succ_eq_map, List.map_cons, List.map_map]
          refine congrArg₂ _ (by omega) (List.map_congr_left ?_)
          intro a _
          simp [Function.comp]
          omega

/-- C4: sequence monotonicity: successive calls of the sequence generator on
one name return strictly increasing values with no duplicates, each call
leaves the stored counter at its returned value plus one, and the first call
for a previously unseen name initializes the counter to zero before the
increment (returning 0 and storing 1). -/
theorem claim_C4_sequence_monotonic (s : SeqStore) (name : String) (k : Nat) :
    List.Pairwise (· < ·) (seqCalls s name k) ∧
    ((sequence s name).2) name = some ((sequence s name).1 + 1) ∧
    (s name = none → (sequence s name).1 = 0 ∧ ((sequence s name).2) name = some 1) := by
  refine ⟨?_, by simp [sequence], ?_⟩
  · rw [seqCalls_closed_form]
    rw [List.pairwise_map]
    exact (List.pairwise_lt_range k).imp (fun h => by omega)
  · intro h
    simp [sequence, h]

theorem claim_C4_witness :
    ((fun _ => none : SeqStore) "counter" = none) ∧
    ((sequence (fun _ => none : SeqStore) "counter").1 = 0 ∧
      ((sequence (fun _ => none : SeqStore) "counter").2) "counter" = some 1) :=
  ⟨rfl, (claim_C4_sequence_monotonic (fun _ => none) "counter" 0).2.2 rfl⟩

/-! ## Transaction-runner theorems (C1, C7) -/

theorem applyOp_ok_applyAction (st st1 : Store) (op : TxnOp)
    (h : applyOp st op = .ok st1) : applyAction st op = st1 := by
  unfold applyOp at h
  unfold applyAction
  by_cases hc : checkAssert (st (op.coll, op.docId)) op.assert = true
  · rw [if_pos hc] at h
    rcases hact : op.action with p | p | _ <;>
      rcases hcur : st (op.coll, op.docId) with _ | d <;>
      rw [hcur] at h <;> simp_all
  · rw [if_neg hc] at h
    cases h

theorem applyOps_ok_eq_foldl (ops : List TxnOp) :
    ∀ st st2 : Store, applyOps st ops = .ok st2 → st2 = ops.foldl applyAction st := by
  induction ops with
  | nil =>
    intro st st2 h
    simp [applyOps] at h
    simp [h]
  | cons op ops ih =>
    intro st st2 h
    unfold applyOps at h
    cases h1 : applyOp st op with
    | error e => rw [h1] at h; cases h
    | ok st1 =>
      rw [h1] at h
      rw [List.foldl_cons, applyOp_ok_applyAction st st1 op h1]
      exact ih st1 st2 h

/-- C1: atomicity of the Transaction Runner: for every starting dataset and
every transaction, the caller observes either a successful commit — the
dataset with every one of the N operations applied in order — or the
untouched original dataset together with exactly one typed error; no outcome
exposes a partial commit. -/
theorem claim_C1_transaction_atomic (st : Store) (ops : List TxnOp) :
    ((runTransaction st ops).2 = none →
      (runTransaction st ops).1 = ops.foldl applyAction st) ∧
    (∀ e, (runTransaction st ops).2 = some e → (runTransaction st ops).1 = st) := by
  unfold runTransaction
  cases h : applyOps st ops with
  | ok st2 =>
    refine ⟨fun _ => ?_, fun e he => ?_⟩
    · simpa using applyOps_ok_eq_foldl ops st st2 h
    · cases he
  | error e =>
    refine ⟨fun h2 => ?_, fun e2 _ => rfl⟩
    simp at h2

theorem claim_C1_witness :
    (runTransaction (fun _ => none)
        [⟨"machines", "0", .docExists, .remove⟩]).2 = some .aborted ∧
    (runTransaction (fun _ => none)
        [⟨"machines", "0", .docExists, .remove⟩]).1 = (fun _ => none) :=
  ⟨rfl,
    (claim_C1_transaction_atomic (fun _ => none)
      [⟨"machines", "0", .docExists, .remove⟩]).2 .aborted rfl⟩

theorem retryLoop_all_conflicts (attempt : Nat → AttemptOutcome) :
    ∀ fuel i, (∀ j, j < fuel → attempt (i + j) = .assertFailed) →
      retryLoop attempt fuel i = some .excessiveContention := by
  intro fuel
  induction fuel with
  | zero => intro i _; rfl
  | succ fuel ih =>
    intro i h
    have h0 : attempt i = .assertFailed := by simpa using h 0 (Nat.succ_pos fuel)
    rw [retryLoop, h0]
    refine ih (i + 1) fun j hj => ?_
    have := h (j + 1) (by omega)
    rwa [show i + (j + 1) = i + 1 + j by omega] at this

theorem retryLoop_fatal_stops (attempt : Nat → AttemptOutcome) (e : StateError) :
    ∀ fuel i k, k < fuel → (∀ j, j < k → attempt (i + j) = .assertFailed) →
      attempt (i + k) = .fatal e → retryLoop attempt fuel i = some e := by
  intro fuel
  induction fuel with
  | zero => intro i k hk; omega
  | succ fuel ih =>
    intro i k hk hpre hk2
    cases k with
    | zero =>
      simp only [Nat.add_zero] at hk2
      rw [retryLoop, hk2]
    | succ k =>
      have h0 : attempt i = .assertFailed := by simpa using hpre 0 (Nat.succ_pos k)
      rw [retryLoop, h0]
      refine ih (i + 1) k (by omega) (fun j hj => ?_) ?_
      · have := hpre (j + 1) (by omega)
        rwa [show i + (j + 1) = i + 1 + j by omega] at this
      · rwa [show i + (k + 1) = i + 1 + k by omega] at hk2

/-- C7: the Transaction Runner retries assertion conflicts only up to its
attempt limit, after which it returns `excessiveContention`; an attempt
failing with `invalidIdentifier` or `notFound` is returned immediately and is
never retried. -/
theorem claim_C7_retry_budget (limit : Nat) (attempt : Nat → AttemptOutcome) :
    ((∀ i, i < limit → attempt i = .assertFailed) →
      runWithRetries limit attempt = some .excessiveContention) ∧
    (∀ k e, k < limit → (∀ j, j < k → attempt j = .assertFailed) →
      attempt k = .fatal e → (e = .invalidIdentifier ∨ e = .notFound) →
      runWithRetries limit attempt = some e) := by
  constructor
  · intro h
    exact retryLoop_all_conflicts attempt limit 0 (fun j hj => by simpa using h j hj)
  · intro k e hk hpre hfatal _
    exact retryLoop_fatal_stops attempt e limit 0 k hk
      (fun j hj => by simpa using hpre j hj) (by simpa using hfatal)

/-! ## Watcher-coalescing theorems (C5) -/

theorem mem_collapseBatch {x : LogEntry} :
    ∀ {l : List LogEntry}, x ∈ collapseBatch l → x ∈ l := by
  intro l
  induction l with
  | nil => intro h; cases h
  | cons e rest ih =>
    intro h
    rw [collapseBatch] at h
    by_cases ha : rest.any (fun y => y.1 == e.1)
    · rw [if_pos ha] at h
      exact List.mem_cons_of_mem e (ih h)
    · rw [if_neg ha] at h
      rcases List.mem_cons.mp h with h | h
      · exact h ▸ List.mem_cons_self e rest
      · exact List.mem_cons_of_mem e (ih h)

theorem nodup_keys_collapseBatch :
    ∀ l : List LogEntry, ((collapseBatch l).map Prod.fst).Nodup := by
  intro l
  induction l with
  | nil => exact List.nodup_nil
  | cons e rest ih =>
    rw [collapseBatch]
    by_cases ha : rest.any (fun y => y.1 == e.1)
    · rw [if_pos ha]; exact ih
    · rw [if_neg ha]
      rw [List.map_cons, List.nodup_cons]
      refine ⟨fun hmem => ?_, ih⟩
      obtain ⟨x, hx, hx1⟩ := List.mem_map.mp hmem
      exact ha (List.any_eq_true.mpr ⟨x, mem_collapseBatch hx, by simp [hx1]⟩)

theorem lastAlive_none_not_mem {id : String} :
    ∀ {l : List LogEntry}, lastAlive l id = none → ∀ b, (id, b) ∉ l := by
  intro l
  induction l with
  | nil => intro _ b h; cases h
  | cons e rest ih =>
    intro h b hmem
    rw [lastAlive] at h
    cases hrest : lastAlive rest id with
    | some c => rw [hrest] at h; cases h
    | none =>
      rw [hrest] at h
      have he : e.1 ≠ id := by
        intro hid
        rw [if_pos hid] at h
        cases h
      rcases List.mem_cons.mp hmem with hmem | hmem
      · exact he (congrArg Prod.fst hmem.symm)
      · exact ih hrest b hmem

theorem lastAlive_mem_collapseBatch {id : String} :
    ∀ {l : List LogEntry}, lastAlive l id = some true → (id, true) ∈ collapseBatch l := by
  intro l
  induction l with
  | nil => intro h; cases h
  | cons e rest ih =>
    intro h
    rw [lastAlive] at h
    rw [collapseBatch]
    cases hrest : lastAlive rest id with
    | some c =>
      rw [hrest] at h
      have hc : c = true := Option.some.inj h
      have hmem := ih (hc ▸ hrest)
      by_cases ha : rest.any (fun y => y.1 == e.1)
      · rw [if_pos ha]; exact hmem
      · rw [if_neg ha]; exact List.mem_cons_of_mem e hmem
    | none =>
      rw [hrest] at h
      by_cases hid : e.1 = id
      · rw [if_pos hid] at h
        have he2 : e.2 = true := Option.some.inj h
        have ha : rest.any (fun y => y.1 == e.1) = false := by
          rw [Bool.eq_false_iff]
          intro ha
          obtain ⟨x, hx, hx1⟩ := List.any_eq_true.mp ha
          have hx2 : x.1 = id := hid ▸ (by simpa using hx1)
          refine lastAlive_none_not_mem hrest x.2 ?_
          rw [← hx2]
          simpa using hx
        rw [if_neg (by simp [ha])]
        have he3 : e = (id, true) := by
          rcases e with ⟨e1, e2⟩
          simp only at hid he2
          rw [hid, he2]
        exact List.mem_cons.mpr (Or.inl he3.symm)
      · rw [if_neg hid] at h
        cases h

theorem mergeIds_keeps {id : String} :
    ∀ (us : List LogEntry) (cs : List String), id ∈ cs → (∀ b, (id, b) ∉ us) →
      id ∈ mergeIds cs us := by
  intro us
  induction us with
  | nil => intro cs h _; exact h
  | cons u us ih =>
    intro cs h hnot
    have hu1 : u.1 ≠ id := by
      intro hid
      refine hnot u.2 ?_
      rw [← hid]
      simp
    rw [mergeIds]
    refine ih _ ?_ (fun b hb => hnot b (List.mem_cons_of_mem u hb))
    by_cases hu2 : u.2
    · rw [if_pos hu2]
      by_cases hin : u.1 ∈ cs
      · rw [if_pos hin]; exact h
      · rw [if_neg hin]; exact List.mem_append_left _ h
    · rw [if_neg hu2]
      exact (List.mem_erase_of_ne fun hh => hu1 hh.symm).mpr h

theorem mem_mergeIds_of_kept {id : String} :
    ∀ (us : List LogEntry) (cs : List String), (us.map Prod.fst).Nodup →
      (id, true) ∈ us → id ∈ mergeIds cs us := by
  intro us
  induction us with
  | nil => intro cs _ h; cases h
  | cons u us ih =>
    intro cs hnd hmem
    rw [List.map_cons, List.nodup_cons] at hnd
    rcases List.mem_cons.mp hmem with hmem | hmem
    · cases hmem
      rw [mergeIds]
      have hnot : ∀ b, (id, b) ∉ us := by
        intro b hb
        exact hnd.1 (List.mem_map.mpr ⟨(id, b), hb, rfl⟩)
      refine mergeIds_keeps us _ ?_ hnot
      by_cases hin : id ∈ cs <;> simp [hin]
    · rw [mergeIds]
      exact ih _ hnd.2 hmem

theorem mem_mergeIds_sub {id : String} :
    ∀ (us : List LogEntry) (cs : List String), id ∈ mergeIds cs us →
      id ∈ cs ∨ id ∈ us.map Prod.fst := by
  intro us
  induction us with
  | nil => intro cs h; exact Or.inl h
  | cons u us ih =>
    intro cs h
    rw [mergeIds] at h
    rcases ih _ h with h2 | h2
    · by_cases hu2 : u.2
      · rw [if_pos hu2] at h2
        by_cases hin : u.1 ∈ cs
        · rw [if_pos hin] at h2; exact Or.inl h2
        · rw [if_neg hin] at h2
          rcases List.mem_append.mp h2 with h3 | h3
          · exact Or.inl h3
          · right
            rw [List.map_cons, List.mem_singleton.mp h3]
            exact List.mem_cons_self _ _
      · rw [if_neg hu2] at h2
        exact Or.inl (List.mem_of_mem_erase h2)
    · exact Or.inr (by rw [List.map_cons]; exact List.mem_cons_of_mem _ h2)

theorem nodup_mergeIds :
    ∀ (us : List LogEntry) (cs : List String), cs.Nodup → (mergeIds cs us).Nodup := by
  intro us
  induction us with
  | nil => intro cs h; exact h
  | cons u us ih =>
    intro cs h
    rw [mergeIds]
    refine ih _ ?_
    by_cases hu2 : u.2
    · rw [if_pos hu2]
      by_cases hin : u.1 ∈ cs
      · rw [if_pos hin]; exact h
      · rw [if_neg hin]
        exact ((List.perm_append_singleton u.1 cs).nodup_iff).mpr
          (List.nodup_cons.mpr ⟨hin, h⟩)
    · rw [if_neg hu2]
      exact h.erase u.1

theorem lastAlive_filter {id : String} (f : String → Bool) (hf : f id = true) :
    ∀ l : List LogEntry,
      lastAlive (l.filter (fun e => f e.1)) id = lastAlive l id := by
  intro l
  induction l with
  | nil => rfl
  | cons e rest ih =>
    rw [List.filter_cons]
    by_cases he : f e.1
    · rw [if_pos (by simpa using he), lastAlive, lastAlive, ih]
    · rw [if_neg (by simpa using he), ih, lastAlive]
      have hne : e.1 ≠ id := fun hh => he (by rw [hh]; exact hf)
      cases lastAlive rest id with
      | some b => rfl
      | none => simp [hne]

/-- C5: watcher coalescing: one poll iteration over one raw log batch emits
at most one notification per document id; a filter-matching document whose
latest log entry in the batch leaves it existing is notified exactly once,
however many entries of the batch touched it; an id not matching the filter
is never notified. -/
theorem claim_C5_watcher_coalescing (f : String → Bool) (batch : List LogEntry)
    (id : String) :
    (pollChanges f batch).Nodup ∧
    (f id = true → lastAlive batch id = some true →
      (pollChanges f batch).count id = 1) ∧
    (f id = false → (pollChanges f batch).count id = 0) := by
  refine ⟨nodup_mergeIds _ [] List.nodup_nil, fun hf hl => ?_, fun hf => ?_⟩
  · refine List.count_eq_one_of_mem (nodup_mergeIds _ [] List.nodup_nil) ?_
    refine mem_mergeIds_of_kept _ [] (nodup_keys_collapseBatch _) ?_
    refine lastAlive_mem_collapseBatch ?_
    rw [lastAlive_filter f hf batch, hl]
  · rw [List.count_eq_zero]
    intro hmem
    rcases mem_mergeIds_sub _ [] hmem with h | h
    · cases h
    · obtain ⟨x, hx, hx1⟩ := List.mem_map.mp h
      have hx2 := List.mem_filter.mp (mem_collapseBatch hx)
      rw [hx1] at hx2
      rw [hx2.2] at hf
      cases hf

theorem claim_C5_witness :
    ((fun _ => true : String → Bool) "doc1" = true ∧
      lastAlive [("doc1", true), ("doc1", false), ("doc1", true), ("doc1", true),
        ("doc1", true)] "doc1" = some true) ∧
    (pollChanges (fun _ => true) [("doc1", true), ("doc1", false), ("doc1", true),
      ("doc1", true), ("doc1", true)]).count "doc1" = 1 :=
  ⟨⟨rfl, by decide⟩,
    (claim_C5_watcher_coalescing (fun _ => true) [("doc1", true), ("doc1", false),
      ("doc1", true), ("doc1", true), ("doc1", true)] "doc1").2.1 rfl (by decide)⟩

theorem claim_C7_witness :
    (runWithRetries 2 (fun _ => .assertFailed) = some .excessiveContention) ∧
    (runWithRetries 2 (fun i => if i = 0 then .fatal .notFound else .success) =
      some .notFound) :=
  ⟨(claim_C7_retry_budget 2 (fun _ => .assertFailed)).1 (by decide),
    (claim_C7_retry_budget 2 (fun i => if i = 0 then .fatal .notFound else .success)).2
      0 .notFound (by decide) (by omega) (by decide) (Or.inr rfl)⟩

end JujuState

namespace JujuState

/-! ## Status-history theorems (C6) -/

theorem sorted_unique_by_seq {l1 l2 : List StatusRecord}
    (hp : l1.Perm l2) (hs1 : l1.Sorted seqGE) (hs2 : l2.Sorted seqGE)
    (hnd : (l1.map StatusRecord.seq).Nodup) : l1 = l2 := by
  have hnd2 : (l2.map StatusRecord.seq).Nodup := ((hp.map _).nodup_iff).mp hnd
  have strict : ∀ {l : List StatusRecord}, l.Sorted seqGE →
      (l.map StatusRecord.seq).Nodup →
      l.Pairwise (fun a b => b.seq < a.seq ∨ a = b) := by
    intro l hs hn
    have hne : l.Pairwise (fun a b => a.seq ≠ b.seq) := List.pairwise_map.mp hn
    exact (List.Pairwise.and hs hne).imp
      (fun h => Or.inl (lt_of_le_of_ne h.1 (Ne.symm h.2)))
  haveI : IsAntisymm StatusRecord (fun a b => b.seq < a.seq ∨ a = b) := by
    constructor
    intro a b h1 h2
    rcases h1 with h1 | h1
    · rcases h2 with h2 | h2
      · exact absurd h2 (not_lt.mpr (le_of_lt h1))
      · exact h2.symm
    · exact h1
  exact List.eq_of_perm_of_sorted hp (strict hs1 hnd) (strict hs2 hnd2)

theorem filter_keep_eq_take (S : List StatusRecord) (n : Nat)
    (hndS : (S.map StatusRecord.seq).Nodup) :
    S.filter (fun r => ((S.take n).map StatusRecord.seq).contains r.seq) = S.take n := by
  have h1 : (S.take n).filter
      (fun r => ((S.take n).map StatusRecord.seq).contains r.seq) = S.take n := by
    rw [List.filter_eq_self]
    intro a ha
    exact List.elem_eq_true_of_mem (List.mem_map_of_mem _ ha)
  have h2 : (S.drop n).filter
      (fun r => ((S.take n).map StatusRecord.seq).contains r.seq) = [] := by
    rw [List.filter_eq_nil_iff]
    intro a ha hcon
    have hmem : a.seq ∈ (S.take n).map StatusRecord.seq :=
      List.mem_of_elem_eq_true hcon
    have hdisj : ((S.take n).map StatusRecord.seq).Disjoint
        ((S.drop n).map StatusRecord.seq) := by
      have hx := hndS
      rw [← List.take_append_drop n S, List.map_append, List.nodup_append] at hx
      exact hx.2.2
    exact hdisj hmem (List.mem_map_of_mem _ ha)
  calc S.filter (fun r => ((S.take n).map StatusRecord.seq).contains r.seq)
      = (S.take n ++ S.drop n).filter
          (fun r => ((S.take n).map StatusRecord.seq).contains r.seq) := by
        rw [List.take_append_drop]
    _ = S.take n := by rw [List.filter_append, h1, h2, List.append_nil]

theorem prune_filter_commute (db : List StatusRecord) (key : String) (n : Nat) :
    (pruneStatusHistory db key n).filter (fun r => r.entityKey == key) =
      (db.filter (fun r => r.entityKey == key)).filter
        (fun r => ((statusHistory db key n).map StatusRecord.seq).contains r.seq) := by
  rw [pruneStatusHistory, List.filter_filter, List.filter_filter]
  refine List.filter_congr ?_
  intro r _
  by_cases hk : (r.entityKey == key) = true
  · have hbne : (r.entityKey != key) = false := by simp [bne, hk]
    rw [hk, hbne, Bool.true_and, Bool.false_or, Bool.and_true]
  · have hk2 : (r.entityKey == key) = false := Bool.eq_false_iff.mpr hk
    rw [hk2, Bool.false_and, Bool.and_false]

theorem statusHistory_pruned (db : List StatusRecord) (key : String) (n limit : Nat)
    (hnd : ((db.filter (fun r => r.entityKey == key)).map StatusRecord.seq).Nodup) :
    statusHistory (pruneStatusHistory db key n) key limit =
      (statusHistory db key n).take limit := by
  have hS : (List.insertionSort seqGE
      (db.filter (fun r => r.entityKey == key))).Perm
      (db.filter (fun r => r.entityKey == key)) :=
    List.perm_insertionSort seqGE _
  have hndS : ((List.insertionSort seqGE
      (db.filter (fun r => r.entityKey == key))).map StatusRecord.seq).Nodup :=
    ((hS.map _).nodup_iff).mpr hnd
  have hsorted : List.Sorted seqGE
      (List.insertionSort seqGE (db.filter (fun r => r.entityKey == key))) :=
    List.sorted_insertionSort seqGE _
  have hmain : List.insertionSort seqGE
      ((db.filter (fun r => r.entityKey == key)).filter
        (fun r => ((statusHistory db key n).map StatusRecord.seq).contains r.seq)) =
      statusHistory db key n := by
    refine sorted_unique_by_seq ?_ (List.sorted_insertionSort seqGE _) ?_ ?_
    · refine (List.perm_insertionSort seqGE _).trans ?_
      refine ((hS.symm.filter _).trans ?_)
      rw [show statusHistory db key n = (List.insertionSort seqGE
          (db.filter (fun r => r.entityKey == key))).take n from rfl]
      rw [filter_keep_eq_take _ n hndS]
    · exact List.Pairwise.sublist (List.take_sublist n _)
        (List.sorted_insertionSort seqGE _)
    · refine ((List.perm_insertionSort seqGE _).map _).nodup_iff.mpr ?_
      exact List.Nodup.sublist (List.Sublist.map _ (List.filter_sublist _)) hnd
  rw [statusHistory, prune_filter_commute db key n, hmain]

theorem prune_idem (db : List StatusRecord) (key : String) (n : Nat)
    (hnd : ((db.filter (fun r => r.entityKey == key)).map StatusRecord.seq).Nodup) :
    pruneStatusHistory (pruneStatusHistory db key n) key n =
      pruneStatusHistory db key n := by
  have hkeep : statusHistory (pruneStatusHistory db key n) key n =
      statusHistory db key n := by
    rw [statusHistory_pruned db key n n hnd]
    rw [show statusHistory db key n = (List.insertionSort seqGE
        (db.filter (fun r => r.entityKey == key))).take n from rfl]
    rw [List.take_take, min_self]
  conv_lhs => rw [pruneStatusHistory]
  rw [hkeep, pruneStatusHistory, List.filter_filter]
  refine List.filter_congr ?_
  intro r _
  exact Bool.and_self _

/-- C6: status-history ordering and pruning: histories are ordered newest
first by sequence number; after pruning a key to the `n` highest-sequence
records, any history query for that key returns exactly the pre-prune top-`n`
records (newest first, truncated by the query limit); and pruning an
already-pruned key again is a no-op.  The hypothesis is that the key's
records carry distinct sequence numbers, which the Sequence Generator
guarantees. -/
theorem claim_C6_status_history_prune (db : List StatusRecord) (key : String)
    (n limit : Nat)
    (hnd : ((db.filter (fun r => r.entityKey == key)).map StatusRecord.seq).Nodup) :
    (statusHistory db key limit).Sorted seqGE ∧
    statusHistory (pruneStatusHistory db key n) key limit =
      (statusHistory db key n).take limit ∧
    pruneStatusHistory (pruneStatusHistory db key n) key n =
      pruneStatusHistory db key n := by
  refine ⟨?_, statusHistory_pruned db key n limit hnd, prune_idem db key n hnd⟩
  exact List.Pairwise.sublist (List.take_sublist limit _)
    (List.sorted_insertionSort seqGE _)

theorem claim_C6_witness :
    ((((List.range 10).map
        (fun i => (⟨"unit-0", "active", "", [], i, i + 1⟩ : StatusRecord))).filter
        (fun r => r.entityKey == "unit-0")).map StatusRecord.seq).Nodup ∧
    ((statusHistory ((List.range 10).map
        (fun i => (⟨"unit-0", "active", "", [], i, i + 1⟩ : StatusRecord)))
        "unit-0" 10).Sorted seqGE ∧
      statusHistory (pruneStatusHistory ((List.range 10).map
          (fun i => (⟨"unit-0", "active", "", [], i, i + 1⟩ : StatusRecord)))
          "unit-0" 3) "unit-0" 10 =
        (statusHistory ((List.range 10).map
          (fun i => (⟨"unit-0", "active", "", [], i, i + 1⟩ : StatusRecord)))
          "unit-0" 3).take 10 ∧
      pruneStatusHistory (pruneStatusHistory ((List.range 10).map
          (fun i => (⟨"unit-0", "active", "", [], i, i + 1⟩ : StatusRecord)))
          "unit-0" 3) "unit-0" 3 =
        pruneStatusHistory ((List.range 10).map
          (fun i => (⟨"unit-0", "active", "", [], i, i + 1⟩ : StatusRecord)))
          "unit-0" 3) :=
  ⟨by decide,
    claim_C6_status_history_prune ((List.range 10).map
      (fun i => (⟨"unit-0", "active", "", [], i, i + 1⟩ : StatusRecord)))
      "unit-0" 3 10 (by decide)⟩

/-! ## Password-hash capability theorems (C8) -/

theorem claim_C8_counterexample :
    SetPasswordHash (.fixedHashEntity "legacy") "new" = .error .typeAssertionFailed :=
  rfl

/-- C8 (amended): the optional-capability query `asPasswordHashSettable`
returns an absence value exactly for entities whose implementation does not
support password-hash writes; the code's `SetPasswordHash`, however, obtains
the capability through an implicit dynamic cast: it agrees with the query's
capability when one is present, and fails at runtime (a type-assertion panic)
when the query returns absence. -/
theorem claim_C8_password_hash_capability (e : Authenticator) (h : String) :
    (∀ f, asPasswordHashSettable e = some f → SetPasswordHash e h = .ok (f h)) ∧
    (asPasswordHashSettable e = none →
      SetPasswordHash e h = .error .typeAssertionFailed) := by
  cases e with
  | hashSettableEntity p =>
    refine ⟨fun f hf => ?_, fun hn => by cases hn⟩
    have : f = fun h2 => Authenticator.hashSettableEntity h2 :=
      (Option.some.inj hf).symm
    rw [this]
    rfl
  | fixedHashEntity p =>
    refine ⟨fun f hf => ?_, fun _ => rfl⟩
    cases hf

theorem claim_C8_witness :
    (asPasswordHashSettable (.fixedHashEntity "old") = none) ∧
    SetPasswordHash (.fixedHashEntity "old") "new" = .error .typeAssertionFailed :=
  ⟨rfl, (claim_C8_password_hash_capability (.fixedHashEntity "old") "new").2 rfl⟩

end JujuState

namespace OpenstackFw

/-! ## Firewaller theorems (C9, C10) -/

/-- C9: every firewaller operation checks the configured firewall mode first:
the model-wide operations (`OpenPorts`, `ClosePorts`, `Ports`) return an
invalid-firewall-mode error and leave the security groups untouched whenever
the mode is not global, and the per-instance operations
(`OpenInstancePorts`, `CloseInstancePorts`, `InstancePorts`) do likewise
whenever the mode is not instance. -/
theorem claim_C9_firewall_mode_guard (rxMatch : String → String → Bool)
    (cfg : EnvConfig) (groups : List SecGroup) (machineId : String)
    (prs : List PortRange) :
    (cfg.firewallMode ≠ FwGlobal →
      OpenPorts rxMatch cfg groups prs =
        (some (.invalidFirewallMode cfg.firewallMode "opening ports on model"),
          groups) ∧
      ClosePorts rxMatch cfg groups prs =
        (some (.invalidFirewallMode cfg.firewallMode "closing ports on model"),
          groups) ∧
      Ports rxMatch cfg groups =
        .error (.invalidFirewallMode cfg.firewallMode "retrieving ports from model")) ∧
    (cfg.firewallMode ≠ FwInstance →
      OpenInstancePorts rxMatch cfg groups machineId prs =
        (some (.invalidFirewallMode cfg.firewallMode "opening ports on instance"),
          groups) ∧
      CloseInstancePorts rxMatch cfg groups machineId prs =
        (some (.invalidFirewallMode cfg.firewallMode "closing ports on instance"),
          groups) ∧
      InstancePorts rxMatch cfg groups machineId =
        .error (.invalidFirewallMode cfg.firewallMode
          "retrieving ports from instance")) := by
  constructor
  · intro h
    exact ⟨by rw [OpenPorts, if_pos h], by rw [ClosePorts, if_pos h],
      by rw [Ports, if_pos h]⟩
  · intro h
    exact ⟨by rw [OpenInstancePorts, if_pos h], by rw [CloseInstancePorts, if_pos h],
      by rw [InstancePorts, if_pos h]⟩

theorem claim_C9_witness :
    (("none" : String) ≠ FwGlobal ∧ ("none" : String) ≠ FwInstance) ∧
    (OpenPorts (fun _ _ => true) ⟨"none", "model-uuid"⟩ [] [] =
      (some (.invalidFirewallMode "none" "opening ports on model"), []) ∧
     InstancePorts (fun _ _ => true) ⟨"none", "model-uuid"⟩ [] "0" =
      .error (.invalidFirewallMode "none" "retrieving ports from instance")) :=
  ⟨⟨by decide, by decide⟩,
    ⟨((claim_C9_firewall_mode_guard (fun _ _ => true) ⟨"none", "model-uuid"⟩ [] "0"
        []).1 (by decide)).1,
      ((claim_C9_firewall_mode_guard (fun _ _ => true) ⟨"none", "model-uuid"⟩ [] "0"
        []).2 (by decide)).2.2⟩⟩

theorem collectGroupRanges_mem :
    ∀ (rules : List SecGroupRule) (ranges : List PortRange),
      collectGroupRanges rules = .ok ranges →
      ∀ pr ∈ ranges, ∃ r ∈ rules, r.direction ≠ "egress" ∧ rangeOfRule r = .ok pr := by
  intro rules
  induction rules with
  | nil =>
    intro ranges h pr hpr
    have : ranges = [] := (Except.ok.inj h).symm
    rw [this] at hpr
    cases hpr
  | cons r rest ih =>
    intro ranges h pr hpr
    rw [collectGroupRanges] at h
    by_cases he : (r.direction == "egress") = true
    · rw [if_pos he] at h
      obtain ⟨r2, hr2, hd, hrange⟩ := ih ranges h pr hpr
      exact ⟨r2, List.mem_cons_of_mem r hr2, hd, hrange⟩
    · rw [if_neg he] at h
      cases h1 : rangeOfRule r with
      | error e =>
        rw [h1] at h
        cases h2 : collectGroupRanges rest with
        | error e2 => rw [h2] at h; cases h
        | ok prs0 => rw [h2] at h; cases h
      | ok pr0 =>
        rw [h1] at h
        cases h2 : collectGroupRanges rest with
        | error e => rw [h2] at h; cases h
        | ok prs0 =>
          rw [h2] at h
          have hr : ranges = pr0 :: prs0 := (Except.ok.inj h).symm
          rw [hr] at hpr
          have hdir : r.direction ≠ "egress" := by
            intro hd
            exact he (by rw [hd]; rfl)
          rcases List.mem_cons.mp hpr with hpr | hpr
          · exact ⟨r, List.mem_cons_self r rest, hdir, hpr ▸ h1⟩
          · obtain ⟨r2, hr2, hd2, hrange2⟩ := ih prs0 h2 pr hpr
            exact ⟨r2, List.mem_cons_of_mem r hr2, hd2, hrange2⟩

/-- C10: `portsInGroup` succeeds exactly when one existing security group's
name matches the regexp (zero and multiple matches fail with a not-found
error), and on success returns the port ranges of the non-egress rules of
that uniquely matching group, sorted by `SortPortRanges`. -/
theorem claim_C10_ports_in_group (rxMatch : String → String → Bool)
    (nameRegExp : String) (groups : List SecGroup) :
    (∀ g, matchingGroup rxMatch nameRegExp groups = .ok g ↔
      groups.filter (fun x => rxMatch nameRegExp x.name) = [g]) ∧
    ((groups.filter (fun x => rxMatch nameRegExp x.name)).length ≠ 1 →
      portsInGroup rxMatch nameRegExp groups = .error (.groupsNotFound nameRegExp)) ∧
    (∀ prs, portsInGroup rxMatch nameRegExp groups = .ok prs →
      ∃ g, groups.filter (fun x => rxMatch nameRegExp x.name) = [g] ∧
        (∃ ranges, collectGroupRanges g.rules = .ok ranges ∧
          prs = SortPortRanges ranges) ∧
        prs.Sorted portRangeLE ∧
        ∀ pr ∈ prs, ∃ r ∈ g.rules, r.direction ≠ "egress" ∧
          rangeOfRule r = .ok pr) := by
  have hmg : ∀ g, matchingGroup rxMatch nameRegExp groups = .ok g ↔
      groups.filter (fun x => rxMatch nameRegExp x.name) = [g] := by
    intro g
    rw [matchingGroup]
    cases hf : groups.filter (fun x => rxMatch nameRegExp x.name) with
    | nil => simp
    | cons a t =>
      cases t with
      | nil =>
        constructor
        · intro h
          rw [Except.ok.inj h]
        · intro h
          rw [List.cons.injEq] at h
          rw [h.1]
      | cons b t2 => simp
  refine ⟨hmg, ?_, ?_⟩
  · intro hlen
    rw [portsInGroup, matchingGroup]
    cases hf : groups.filter (fun x => rxMatch nameRegExp x.name) with
    | nil => rfl
    | cons a t =>
      cases t with
      | nil => exact absurd (by rw [hf]; rfl) hlen
      | cons b t2 => rfl
  · intro prs h
    rw [portsInGroup] at h
    cases hm : matchingGroup rxMatch nameRegExp groups with
    | error e => rw [hm] at h; cases h
    | ok g =>
      rw [hm] at h
      have h3 : (match collectGroupRanges g.rules with
          | Except.error e => (Except.error e : Except FwError (List PortRange))
          | Except.ok prs2 => Except.ok (SortPortRanges prs2)) = Except.ok prs := h
      cases hc : collectGroupRanges g.rules with
      | error e => rw [hc] at h3; cases h3
      | ok ranges =>
        rw [hc] at h3
        have hprs : prs = SortPortRanges ranges := (Except.ok.inj h3).symm
        refine ⟨g, (hmg g).mp hm, ⟨ranges, hc, hprs⟩, ?_, ?_⟩
        · rw [hprs]
          exact List.sorted_insertionSort portRangeLE ranges
        · intro pr hpr
          refine collectGroupRanges_mem g.rules ranges hc pr ?_
          rw [hprs] at hpr
          exact (List.perm_insertionSort portRangeLE ranges).mem_iff.mp hpr

theorem claim_C10_witness :
    ((([] : List SecGroup).filter
        (fun x => (fun _ _ => true : String → String → Bool) "juju-.*-u" x.name)).length
      ≠ 1) ∧
    portsInGroup (fun _ _ => true) "juju-.*-u" [] =
      .error (.groupsNotFound "juju-.*-u") :=
  ⟨by decide,
    (claim_C10_ports_in_group (fun _ _ => true) "juju-.*-u" []).2.1 (by decide)⟩

end OpenstackFw
